import Mathlib

/-!
# img2grayMPI: the partition / transform / gather pipeline of `src/main.c`

A shallow embedding of `img2gray`, of the size computations of `main` and of
`write_output`.

Conventions of the embedding.

* An `unsigned char` is a `Fin 256`.  A buffer is addressed relative to its base
  pointer: `Mem` maps a byte offset to the byte stored there.  The pointers `p`
  and `pg` of the transform loop are kept as offsets from `input` and `output`.
* C `int` quantities (`width`, `height`, `channels`, `world_size`, `world_rank`,
  `input_size`, `output_size`) are natural numbers: they are non-negative in the
  program and signed overflow is undefined in C, so they are taken within range.
* The `for` loop of `img2gray` has no bound of its own, so it is run with fuel;
  one unit of fuel is one iteration.  Every address the loop body reads or writes
  is recorded in the loop state, so that memory safety is a property of the trace.
-/

namespace Img2Gray

/-- One `unsigned char`. -/
abbrev Byte := Fin 256

/-- A byte buffer seen from its base pointer: offset to content. -/
abbrev Mem := Nat → Byte

/-- The assignment `*(base + a) = v`. -/
def store (m : Mem) (a : Nat) (v : Byte) : Mem :=
  fun j => if j = a then v else m j

/-- The first `n` bytes of a buffer. -/
def readBuf (m : Mem) (n : Nat) : List Byte :=
  (List.range n).map m

/-- A buffer whose leading bytes are those of `l` (zero further on). -/
def memOfList (l : List Byte) : Mem :=
  fun j => l.getD j 0

/-- The conversion `(uint8_t) x` of a non-negative integer value. -/
def toUInt8 (n : Nat) : Byte :=
  ⟨n % 256, Nat.mod_lt n (by decide)⟩

/-- Line 36: `(uint8_t)((*p + *(p + 1) + *(p + 2)) / 3.0)`.
The three bytes are promoted to `int` and added, the sum is divided by `3.0`
as a real number, and the conversion to `uint8_t` drops the fractional part.
(The sum is at most 765, and a quotient `s / 3` that is not an integer lies a
third away from the nearest one, so the rounding of the double division cannot
change the integer part.) -/
def luminance (r g b : Byte) : Byte :=
  toUInt8 (Int.toNat (Rat.floor (((r.val + g.val + b.val : Nat) : ℚ) / 3)))

/-- The state of the transform loop of `img2gray` (lines 35-38). `reads`,
`writes` and `iters` are ghost fields: the input offsets read so far, the
output offsets written so far, and the number of iterations run. -/
structure LoopState where
  p : Nat
  pg : Nat
  output : Mem
  reads : List Nat
  writes : List Nat
  iters : Nat

/-- The loop body (lines 36-37) followed by the increment
`p += channels, pg += gray_channels` of line 35. -/
def img2gray_step (input : Mem) (channels gray_channels : Nat) (s : LoopState) : LoopState :=
  let out1 := store s.output s.pg (luminance (input s.p) (input (s.p + 1)) (input (s.p + 2)))
  if channels = 4 then
    { p := s.p + channels
      pg := s.pg + gray_channels
      output := store out1 (s.pg + 1) (input (s.p + 3))
      reads := s.reads ++ [s.p, s.p + 1, s.p + 2, s.p + 3]
      writes := s.writes ++ [s.pg, s.pg + 1]
      iters := s.iters + 1 }
  else
    { p := s.p + channels
      pg := s.pg + gray_channels
      output := out1
      reads := s.reads ++ [s.p, s.p + 1, s.p + 2]
      writes := s.writes ++ [s.pg]
      iters := s.iters + 1 }

/-- The `for` loop of line 35 with its exit test
`p != input + input_size*(world_rank+1)`: `some s` when the test fails within
`fuel` iterations, `none` when the loop is still running after `fuel` of them. -/
def img2gray_loop (input : Mem) (input_size world_rank channels gray_channels : Nat) :
    Nat → LoopState → Option LoopState
  | fuel, s =>
    if s.p = input_size * (world_rank + 1) then some s
    else
      match fuel with
      | 0 => none
      | fuel + 1 =>
        img2gray_loop input input_size world_rank channels gray_channels fuel
          (img2gray_step input channels gray_channels s)

/-- The loop state on entry: `p = input + inp` with `inp = input_size*world_rank`
(line 31), `pg = output`. -/
def img2gray_init (output : Mem) (input_size world_rank : Nat) : LoopState :=
  { p := input_size * world_rank, pg := 0, output := output, reads := [], writes := [], iters := 0 }

/-- The transform phase of `img2gray` (lines 31-38) on one worker. -/
def img2gray_transform (fuel : Nat) (input : Mem) (input_size : Nat) (output : Mem)
    (world_rank channels gray_channels : Nat) : Option LoopState :=
  img2gray_loop input input_size world_rank channels gray_channels fuel
    (img2gray_init output input_size world_rank)

/-- Line 123 of `main`: `gray_channels = channels == 4 ? 2 : 1`. -/
def gray_channels (channels : Nat) : Nat :=
  if channels = 4 then 2 else 1

/-- Line 126 of `main`. -/
def input_size (width height channels world_size : Nat) : Nat :=
  width * height * channels / world_size

/-- Line 127 of `main`. -/
def output_size (width height channels world_size : Nat) : Nat :=
  width * height * gray_channels channels / world_size

/-- Line 133 of `main`: the number of bytes allocated for `global_output`. -/
def global_output_size (width height channels world_size : Nat) : Nat :=
  output_size width height channels world_size * world_size

/-- The send buffer a worker passes to the gather at line 44: the first
`output_size` bytes of its private `output`, once its loop has ended. -/
def img2gray_send (fuel : Nat) (input : Mem) (input_size : Nat) (output : Mem)
    (output_size world_rank channels gray_channels : Nat) : Option (List Byte) :=
  (img2gray_transform fuel input input_size output world_rank channels gray_channels).map
    (fun s => readBuf s.output output_size)

/-- The copy of `bytes` to offset `off` of a buffer. -/
def storeBytes (m : Mem) (off : Nat) (bytes : List Byte) : Mem :=
  fun j => if off ≤ j ∧ j < off + bytes.length then bytes.getD (j - off) 0 else m j

/-- Modelled from the spec: the collective `MPI_Gather` with root 0 that line 44
invokes; the message-passing runtime is not part of the sources.  Every worker
contributes a buffer of `recvcount` bytes (`sendbufs`, by rank), the contributions
reach the root in the order `arrival` (a list of ranks), and the root puts the
contribution of rank `k` at offset `k * recvcount` of its receive buffer. -/
def MPI_Gather (sendbufs : List (List Byte)) (recvcount : Nat) (arrival : List Nat)
    (recvbuf : Mem) : Mem :=
  arrival.foldl (fun m k => storeBytes m (k * recvcount) (sendbufs.getD k [])) recvbuf

/-- The send buffers of the workers of rank `0 .. n-1`, each running the transform
phase of `img2gray` with the sizes computed by `main` (lines 123-127) on its own
uninitialised private buffer `outputs rank`; `none` when some loop is still running
after `fuel` iterations. -/
def worker_buffers (fuel width height channels world_size : Nat) (input : Mem)
    (outputs : Nat → Mem) : Nat → Option (List (List Byte))
  | 0 => some []
  | n + 1 =>
    match worker_buffers fuel width height channels world_size input outputs n,
      img2gray_send fuel input (input_size width height channels world_size) (outputs n)
        (output_size width height channels world_size) n channels (gray_channels channels) with
    | some bufs, some b => some (bufs ++ [b])
    | _, _ => none

/-- The content of `global_output` on rank 0 after `img2gray`: all `world_size`
workers transform their partition, then the gather assembles the private buffers. -/
def pipeline (fuel width height channels world_size : Nat) (input : Mem)
    (outputs : Nat → Mem) (arrival : List Nat) (global_output : Mem) : Option (List Byte) :=
  (worker_buffers fuel width height channels world_size input outputs world_size).map
    (fun bufs =>
      readBuf (MPI_Gather bufs (output_size width height channels world_size) arrival global_output)
        (global_output_size width height channels world_size))

/-- The byte range `[size*k, size*(k+1))` owned by worker `k`. -/
def inPartition (size k b : Nat) : Prop :=
  size * k ≤ b ∧ b < size * (k + 1)

instance (size k b : Nat) : Decidable (inPartition size k b) := by
  unfold inPartition
  infer_instance

/-- The C library function `strrchr` on a string given by its characters: the
index of the last occurrence of `c`, `none` for the null pointer. -/
def strrchr : List Char → Char → Option Nat
  | [], _ => none
  | a :: s, c =>
    match strrchr s c with
    | some i => some (i + 1)
    | none => if a = c then some 0 else none

/-- A call of one of the three image writers, with the arguments of the source. -/
inductive EncoderCall where
  | stbi_write_jpg (filename : List Char) (w h comp quality : Nat)
  | stbi_write_png (filename : List Char) (w h comp stride_in_bytes : Nat)
  | stbi_write_bmp (filename : List Char) (w h comp : Nat)
  deriving DecidableEq

/-- The number of bytes of `global_output` a writer is handed: `w * h * comp`. -/
def EncoderCall.dataSize : EncoderCall → Nat
  | .stbi_write_jpg _ w h comp _ => w * h * comp
  | .stbi_write_png _ w h comp _ => w * h * comp
  | .stbi_write_bmp _ w h comp => w * h * comp

/-- What `write_output` does: the text it prints, if any, and the writer it calls. -/
structure WriteEffect where
  printed : Option String
  call : EncoderCall
  deriving DecidableEq

/-- The function `write_output` (lines 73-87), with the globals `width` and
`height` as parameters.  `none` is undefined behaviour: when the path holds no
`'.'`, `strrchr` returns the null pointer and `strcmp` reads from `dot + 1`. -/
def write_output (width height : Nat) (output_path : List Char) (output_channels : Nat) :
    Option WriteEffect :=
  match strrchr output_path '.' with
  | none => none
  | some dot =>
    let ext := output_path.drop (dot + 1)
    if ext = "jpg".toList ∨ ext = "jpeg".toList then
      some ⟨none, .stbi_write_jpg output_path width height output_channels 100⟩
    else if ext = "png".toList then
      some ⟨none, .stbi_write_png output_path width height output_channels
        (width * output_channels)⟩
    else if ext = "bmp".toList then
      some ⟨none, .stbi_write_bmp output_path width height output_channels⟩
    else
      some ⟨some "Output type is not jpg, png or bmp, defaulting to output.jpg\n",
        .stbi_write_jpg "output.jpg".toList width height output_channels 100⟩

/-- Where a worker stands in `img2gray`: not yet in it, inside the barrier of
line 29, in the loop of lines 35-38 after `k` iterations, inside the barrier of
line 41, inside the gather of line 44, past it. -/
inductive Phase where
  | idle
  | entryBarrier
  | computing (k : Nat)
  | exitBarrier
  | gathering
  | finished
  deriving DecidableEq

/-- The position of a phase in the program order of `img2gray`. -/
def Phase.order : Phase → Nat
  | .idle => 0
  | .entryBarrier => 1
  | .computing _ => 2
  | .exitBarrier => 3
  | .gathering => 4
  | .finished => 5

/-- Modelled from the spec: `MPI_Barrier`, which the sources only call.  A worker
inside a barrier leaves it only when every worker of the group has entered that
barrier, that is when no worker is at an earlier point of the program. -/
def barrierOpen (σ : List Phase) (barrier : Phase) : Bool :=
  σ.all (fun ph => decide (barrier.order ≤ ph.order))

/-- The next phase of one worker, following the text of `img2gray`: the loop runs
until its exit test holds (after `iters` iterations, when it ever does); a barrier
is left only when open.  `none` when the worker cannot move. -/
def nextPhase (iters : Nat) (σ : List Phase) : Phase → Option Phase
  | .idle => some .entryBarrier
  | .entryBarrier => if barrierOpen σ .entryBarrier then some (.computing 0) else none
  | .computing k => if k = iters then some .exitBarrier else some (.computing (k + 1))
  | .exitBarrier => if barrierOpen σ .exitBarrier then some .gathering else none
  | .gathering => some .finished
  | .finished => none

/-- One move of worker `w` in the group state `σ` (the phase of each rank). -/
def workerStep (iters : Nat) (σ : List Phase) (w : Nat) : Option (List Phase) :=
  match σ[w]? with
  | none => none
  | some ph => (nextPhase iters σ ph).map (fun ph1 => σ.set w ph1)

/-- The group states that an execution of `world_size` workers can reach, all
workers starting before `img2gray`, under any interleaving of their moves. -/
inductive Reachable (world_size iters : Nat) : List Phase → Prop where
  | start : Reachable world_size iters (List.replicate world_size Phase.idle)
  | move (σ τ : List Phase) (w : Nat) : Reachable world_size iters σ →
      workerStep iters σ w = some τ → Reachable world_size iters τ

/-- The bytes one pixel contributes to the output, read off lines 36-37: the
luminance of the three leading bytes, then the 4th byte when `channels == 4`. -/
def grayPixel (input : Mem) (channels a : Nat) : List Byte :=
  if channels = 4 then [luminance (input a) (input (a + 1)) (input (a + 2)), input (a + 3)]
  else [luminance (input a) (input (a + 1)) (input (a + 2))]

/-- The sequential reference transform of `n` pixels starting at offset `start`. -/
def grayPixels (input : Mem) (channels start n : Nat) : List Byte :=
  (List.range n).flatMap (fun i => grayPixel input channels (start + i * channels))

/-! ## The luminance byte -/

theorem luminance_val (r g b : Byte) :
    (luminance r g b).val = (r.val + g.val + b.val) / 3 := by
  unfold luminance toUInt8
  have h : Rat.floor (((r.val + g.val + b.val : Nat) : ℚ) / 3)
      = (((r.val + g.val + b.val) / 3 : Nat) : ℤ) := by
    have := Rat.floor_natCast_div_natCast (r.val + g.val + b.val) 3
    simpa using this
  simp only [h, Int.toNat_ofNat]
  have hr := r.isLt
  have hg := g.isLt
  have hb := b.isLt
  omega

/-! ## The transform loop -/

theorem store_same (m : Mem) (a : Nat) (v : Byte) : store m a v a = v := by
  simp [store]

theorem store_other (m : Mem) (a j : Nat) (v : Byte) (h : j ≠ a) : store m a v j = m j := by
  simp [store, h]

theorem step_p (input : Mem) (c g : Nat) (s : LoopState) :
    (img2gray_step input c g s).p = s.p + c := by
  unfold img2gray_step
  split <;> rfl

theorem step_pg (input : Mem) (c g : Nat) (s : LoopState) :
    (img2gray_step input c g s).pg = s.pg + g := by
  unfold img2gray_step
  split <;> rfl

theorem step_iters (input : Mem) (c g : Nat) (s : LoopState) :
    (img2gray_step input c g s).iters = s.iters + 1 := by
  unfold img2gray_step
  split <;> rfl

theorem iterate_p (input : Mem) (c g : Nat) (s : LoopState) (k : Nat) :
    ((img2gray_step input c g)^[k] s).p = s.p + k * c := by
  induction k with
  | zero => simp
  | succ k ih => rw [Function.iterate_succ_apply', step_p, ih]; ring

theorem iterate_pg (input : Mem) (c g : Nat) (s : LoopState) (k : Nat) :
    ((img2gray_step input c g)^[k] s).pg = s.pg + k * g := by
  induction k with
  | zero => simp
  | succ k ih => rw [Function.iterate_succ_apply', step_pg, ih]; ring

theorem iterate_iters (input : Mem) (c g : Nat) (s : LoopState) (k : Nat) :
    ((img2gray_step input c g)^[k] s).iters = s.iters + k := by
  induction k with
  | zero => simp
  | succ k ih => rw [Function.iterate_succ_apply', step_iters, ih]; ring

/-- The loop returns the state after `k` iterations when the exit test holds
there for the first time and the fuel covers `k` iterations. -/
theorem loop_of_first_exit (input : Mem) (isz rank c g : Nat) :
    ∀ (k fuel : Nat) (s : LoopState), k ≤ fuel →
      ((img2gray_step input c g)^[k] s).p = isz * (rank + 1) →
      (∀ i, i < k → ((img2gray_step input c g)^[i] s).p ≠ isz * (rank + 1)) →
      img2gray_loop input isz rank c g fuel s = some ((img2gray_step input c g)^[k] s) := by
  intro k
  induction k with
  | zero =>
    intro fuel s _ hk _
    unfold img2gray_loop
    simp only [Function.iterate_zero, id_eq] at hk ⊢
    rw [if_pos hk]
  | succ k ih =>
    intro fuel s hf hk hlt
    have h0 : s.p ≠ isz * (rank + 1) := by
      have := hlt 0 (Nat.succ_pos k)
      simpa using this
    cases fuel with
    | zero => omega
    | succ fuel =>
      unfold img2gray_loop
      rw [if_neg h0]
      simp only
      rw [Function.iterate_succ_apply] at hk ⊢
      apply ih fuel _ (by omega) hk
      intro i hi
      have := hlt (i + 1) (by omega)
      rwa [Function.iterate_succ_apply] at this

/-- A state the loop returns is the state after some number of iterations, within
the fuel, at which the exit test holds. -/
theorem loop_some_iff_aux (input : Mem) (isz rank c g : Nat) :
    ∀ (fuel : Nat) (s t : LoopState),
      img2gray_loop input isz rank c g fuel s = some t →
      ∃ k, k ≤ fuel ∧ t = (img2gray_step input c g)^[k] s ∧ t.p = isz * (rank + 1) := by
  intro fuel
  induction fuel with
  | zero =>
    intro s t h
    unfold img2gray_loop at h
    by_cases h0 : s.p = isz * (rank + 1)
    · rw [if_pos h0] at h
      cases h
      exact ⟨0, le_refl _, rfl, h0⟩
    · rw [if_neg h0] at h
      cases h
  | succ fuel ih =>
    intro s t h
    unfold img2gray_loop at h
    by_cases h0 : s.p = isz * (rank + 1)
    · rw [if_pos h0] at h
      cases h
      exact ⟨0, Nat.zero_le _, rfl, h0⟩
    · rw [if_neg h0] at h
      simp only at h
      obtain ⟨k, hk, ht, hp⟩ := ih _ _ h
      exact ⟨k + 1, by omega, by rw [Function.iterate_succ_apply]; exact ht, hp⟩

/-- With a positive stride, the loop started at `isz * rank` returns exactly when
the stride divides the partition size, and then after `isz / c` iterations. -/
theorem transform_eq_iterate (input out0 : Mem) (isz rank c g fuel : Nat) (hc : 0 < c)
    (hdvd : c ∣ isz) (hfuel : isz / c ≤ fuel) :
    img2gray_transform fuel input isz out0 rank c g
      = some ((img2gray_step input c g)^[isz / c] (img2gray_init out0 isz rank)) := by
  unfold img2gray_transform
  have hmul : isz / c * c = isz := Nat.div_mul_cancel hdvd
  apply loop_of_first_exit _ _ _ _ _ _ _ _ hfuel
  · rw [iterate_p]
    simp only [img2gray_init]
    rw [hmul]; ring
  · intro i hi
    rw [iterate_p]
    simp only [img2gray_init]
    have : i * c < isz / c * c := Nat.mul_lt_mul_of_pos_right hi hc
    intro h
    have h2 : isz * rank + i * c = isz * rank + isz := by rw [h]; ring
    omega

theorem transform_none_of_not_dvd (input out0 : Mem) (isz rank c g fuel : Nat)
    (hdvd : ¬ c ∣ isz) :
    img2gray_transform fuel input isz out0 rank c g = none := by
  cases h : img2gray_transform fuel input isz out0 rank c g with
  | none => rfl
  | some t =>
    exfalso
    unfold img2gray_transform at h
    obtain ⟨k, _, ht, hp⟩ := loop_some_iff_aux _ _ _ _ _ _ _ _ h
    rw [ht, iterate_p] at hp
    simp only [img2gray_init] at hp
    apply hdvd
    refine ⟨k, ?_⟩
    have h2 : isz * rank + k * c = isz * rank + isz := by rw [hp]; ring
    have h3 : k * c = isz := by omega
    rw [← h3]; ring

theorem step_reads (input : Mem) (c g : Nat) (s : LoopState) (hc : c = 3 ∨ c = 4) :
    (img2gray_step input c g s).reads = s.reads ++ List.range' s.p c := by
  unfold img2gray_step
  rcases hc with rfl | rfl <;> simp [List.range']

theorem step_writes (input : Mem) (c : Nat) (s : LoopState) (hc : c = 3 ∨ c = 4) :
    (img2gray_step input c (gray_channels c) s).writes
      = s.writes ++ List.range' s.pg (gray_channels c) := by
  unfold img2gray_step gray_channels
  rcases hc with rfl | rfl <;> simp [List.range']

theorem iterate_reads (input out0 : Mem) (isz rank c g : Nat) (hc : c = 3 ∨ c = 4) (k : Nat) :
    ((img2gray_step input c g)^[k] (img2gray_init out0 isz rank)).reads
      = List.range' (isz * rank) (k * c) := by
  induction k with
  | zero => simp [img2gray_init]
  | succ k ih =>
    rw [Function.iterate_succ_apply', step_reads _ _ _ _ hc, ih, iterate_p]
    simp only [img2gray_init]
    rw [List.range'_append_1]
    congr 1
    ring

theorem iterate_writes (input out0 : Mem) (isz rank c : Nat) (hc : c = 3 ∨ c = 4) (k : Nat) :
    ((img2gray_step input c (gray_channels c))^[k] (img2gray_init out0 isz rank)).writes
      = List.range (k * gray_channels c) := by
  induction k with
  | zero => simp [img2gray_init]
  | succ k ih =>
    rw [Function.iterate_succ_apply', step_writes _ _ _ hc, ih, iterate_pg]
    simp only [img2gray_init, Nat.zero_add]
    rw [List.range_eq_range', List.range_eq_range']
    have := List.range'_append_1 0 (k * gray_channels c) (gray_channels c)
    rw [Nat.zero_add] at this
    rw [this]
    congr 1
    ring

theorem gray_channels_pos (c : Nat) : 0 < gray_channels c := by
  unfold gray_channels
  split <;> omega

/-- The private buffer after `k` iterations: pixel `i < k` holds its luminance
at offset `i * gray_channels`, with `channels == 4` its 4th input byte at the next
offset, and the bytes from offset `k * gray_channels` on are untouched. -/
theorem iterate_output (input out0 : Mem) (isz rank c : Nat) (k : Nat) :
    let t := (img2gray_step input c (gray_channels c))^[k] (img2gray_init out0 isz rank)
    (∀ i, i < k → t.output (i * gray_channels c)
        = luminance (input (isz * rank + i * c)) (input (isz * rank + i * c + 1))
            (input (isz * rank + i * c + 2)))
    ∧ (c = 4 → ∀ i, i < k → t.output (i * gray_channels c + 1) = input (isz * rank + i * c + 3))
    ∧ (∀ j, k * gray_channels c ≤ j → t.output j = out0 j) := by
  induction k with
  | zero =>
    simp only [Function.iterate_zero, id_eq, img2gray_init]
    exact ⟨fun i hi => absurd hi (Nat.not_lt_zero i), fun _ i hi => absurd hi (Nat.not_lt_zero i),
      fun _ _ => trivial⟩
  | succ k ih =>
    simp only at ih ⊢
    obtain ⟨ih1, ih2, ih3⟩ := ih
    rw [Function.iterate_succ_apply']
    generalize hs : (img2gray_step input c (gray_channels c))^[k] (img2gray_init out0 isz rank) = s
      at ih1 ih2 ih3
    have hp : s.p = isz * rank + k * c := by
      rw [← hs, iterate_p]; rfl
    have hpg : s.pg = k * gray_channels c := by
      rw [← hs, iterate_pg]; simp [img2gray_init]
    by_cases h4 : c = 4
    · have hg : gray_channels c = 2 := by simp [gray_channels, h4]
      have hout : (img2gray_step input c (gray_channels c) s).output
          = store (store s.output s.pg
              (luminance (input s.p) (input (s.p + 1)) (input (s.p + 2)))) (s.pg + 1)
              (input (s.p + 3)) := by
        unfold img2gray_step
        rw [if_pos h4]
      rw [hout, hp, hpg, hg]
      rw [hg] at ih1 ih2 ih3
      refine ⟨?_, ?_, ?_⟩
      · intro i hi
        by_cases hik : i = k
        · subst hik
          rw [store_other _ _ _ _ (by omega), store_same]
        · rw [store_other _ _ _ _ (by omega), store_other _ _ _ _ (by omega)]
          exact ih1 i (by omega)
      · intro _ i hi
        by_cases hik : i = k
        · subst hik
          rw [store_same]
        · rw [store_other _ _ _ _ (by omega), store_other _ _ _ _ (by omega)]
          exact ih2 h4 i (by omega)
      · intro j hj
        rw [store_other _ _ _ _ (by omega), store_other _ _ _ _ (by omega)]
        exact ih3 j (by omega)
    · have hg : gray_channels c = 1 := by simp [gray_channels, h4]
      have hout : (img2gray_step input c (gray_channels c) s).output
          = store s.output s.pg
              (luminance (input s.p) (input (s.p + 1)) (input (s.p + 2))) := by
        unfold img2gray_step
        rw [if_neg h4]
      rw [hout, hp, hpg, hg]
      rw [hg] at ih1 ih3
      refine ⟨?_, fun h => absurd h h4, ?_⟩
      · intro i hi
        by_cases hik : i = k
        · subst hik
          rw [store_same]
        · rw [store_other _ _ _ _ (by omega)]
          exact ih1 i (by omega)
      · intro j hj
        rw [store_other _ _ _ _ (by omega)]
        exact ih3 j (by omega)

theorem readBuf_one_per_pixel (m : Mem) (f : Nat → Byte) (n : Nat)
    (h : ∀ i, i < n → m i = f i) :
    readBuf m n = (List.range n).flatMap (fun i => [f i]) := by
  induction n with
  | zero => rfl
  | succ n ih =>
    have ih1 := ih (fun i hi => h i (by omega))
    unfold readBuf at ih1 ⊢
    rw [List.range_succ, List.map_append, List.flatMap_append, ih1]
    simp [h n (Nat.lt_succ_self n)]

theorem readBuf_two_per_pixel (m : Mem) (f1 f2 : Nat → Byte) (n : Nat)
    (h1 : ∀ i, i < n → m (i * 2) = f1 i) (h2 : ∀ i, i < n → m (i * 2 + 1) = f2 i) :
    readBuf m (n * 2) = (List.range n).flatMap (fun i => [f1 i, f2 i]) := by
  induction n with
  | zero => rfl
  | succ n ih =>
    have ih1 := ih (fun i hi => h1 i (by omega)) (fun i hi => h2 i (by omega))
    unfold readBuf at ih1 ⊢
    have hr : List.range ((n + 1) * 2) = List.range (n * 2) ++ [n * 2, n * 2 + 1] := by
      have e : (n + 1) * 2 = (n * 2 + 1) + 1 := by ring
      rw [e, List.range_succ, List.range_succ]
      simp
    rw [hr, List.map_append, ih1, List.range_succ, List.flatMap_append]
    simp [h1 n (Nat.lt_succ_self n), h2 n (Nat.lt_succ_self n)]

/-- The bytes a worker sends are the reference transform of its partition. -/
theorem send_eq_grayPixels (input out0 : Mem) (isz rank c fuel osz : Nat)
    (hc : c = 3 ∨ c = 4) (hdvd : c ∣ isz) (hfuel : isz / c ≤ fuel)
    (hosz : osz = isz / c * gray_channels c) :
    img2gray_send fuel input isz out0 osz rank c (gray_channels c)
      = some (grayPixels input c (isz * rank) (isz / c)) := by
  have hcpos : 0 < c := by omega
  unfold img2gray_send
  rw [transform_eq_iterate input out0 isz rank c _ fuel hcpos hdvd hfuel]
  simp only [Option.map_some']
  congr 1
  obtain ⟨h1, h2, _⟩ := iterate_output input out0 isz rank c (isz / c)
  subst hosz
  unfold grayPixels grayPixel
  by_cases h4 : c = 4
  · have hg : gray_channels c = 2 := by simp [gray_channels, h4]
    rw [hg] at h1 h2 ⊢
    simp only [if_pos h4]
    exact readBuf_two_per_pixel _ _ _ _ h1 (h2 h4)
  · have hg : gray_channels c = 1 := by simp [gray_channels, h4]
    rw [hg] at h1 ⊢
    simp only [if_neg h4, Nat.mul_one] at h1 ⊢
    exact readBuf_one_per_pixel _ _ _ h1

/-- C1: for channels 3 or 4 and a partition of whole pixels, the transform loop
of `img2gray` ends and has written, for every pixel `i` of the partition, at
output offset `i * gray_channels` the byte `floor((R + G + B) / 3)` of the three
leading bytes of that pixel; and the 4x1 RGB image (30,60,90), (0,0,0),
(255,255,255), (10,20,30) with one worker gives the bytes [60, 0, 255, 20]. -/
theorem luminance_is_truncated_mean (input out0 : Mem) (isz rank c fuel : Nat)
    (hc : c = 3 ∨ c = 4) (hdvd : c ∣ isz) (hfuel : isz / c ≤ fuel) :
    (∃ s, img2gray_transform fuel input isz out0 rank c (gray_channels c) = some s ∧
      ∀ i, i < isz / c →
        (s.output (i * gray_channels c)).val
          = ((input (isz * rank + i * c)).val + (input (isz * rank + i * c + 1)).val
              + (input (isz * rank + i * c + 2)).val) / 3)
    ∧ img2gray_send 4 (memOfList [30, 60, 90, 0, 0, 0, 255, 255, 255, 10, 20, 30])
        (input_size 4 1 3 1) out0 (output_size 4 1 3 1) 0 3 (gray_channels 3)
        = some [60, 0, 255, 20] := by
  constructor
  · refine ⟨_, transform_eq_iterate input out0 isz rank c _ fuel (by omega) hdvd hfuel, ?_⟩
    intro i hi
    rw [(iterate_output input out0 isz rank c (isz / c)).1 i hi, luminance_val]
  · have h := send_eq_grayPixels (memOfList [30, 60, 90, 0, 0, 0, 255, 255, 255, 10, 20, 30])
      out0 12 0 3 4 4 (Or.inl rfl) (by decide) (by decide) (by decide)
    have e1 : input_size 4 1 3 1 = 12 := by decide
    have e2 : output_size 4 1 3 1 = 4 := by decide
    rw [e1, e2, h]
    congr 1
    have hl : ∀ r g b : Byte, luminance r g b = ⟨(r.val + g.val + b.val) / 3 % 256,
        Nat.mod_lt _ (by decide)⟩ := by
      intro r g b
      apply Fin.ext
      rw [luminance_val]
      have hr := r.isLt
      have hg := g.isLt
      have hb := b.isLt
      simp only
      omega
    simp only [grayPixels, grayPixel, hl]
    decide

theorem luminance_is_truncated_mean_witness :
    (∃ s, img2gray_transform 2 (memOfList [1, 2, 4, 255, 255, 254]) 6 (fun _ => 0) 0 3
        (gray_channels 3) = some s ∧
      ∀ i, i < 6 / 3 →
        (s.output (i * gray_channels 3)).val
          = ((memOfList [1, 2, 4, 255, 255, 254] (6 * 0 + i * 3)).val
              + (memOfList [1, 2, 4, 255, 255, 254] (6 * 0 + i * 3 + 1)).val
              + (memOfList [1, 2, 4, 255, 255, 254] (6 * 0 + i * 3 + 2)).val) / 3)
    ∧ img2gray_send 4 (memOfList [30, 60, 90, 0, 0, 0, 255, 255, 255, 10, 20, 30])
        (input_size 4 1 3 1) (fun _ => 0) (output_size 4 1 3 1) 0 3 (gray_channels 3)
        = some [60, 0, 255, 20] :=
  luminance_is_truncated_mean (memOfList [1, 2, 4, 255, 255, 254]) (fun _ => 0) 6 0 3 2
    (Or.inl rfl) (by decide) (by decide)

/-- C3: on a partition of whole pixels the loop ends and, with channels 4, has
copied the 4th input byte of every pixel `i` to output offset `i*2+1`; with
channels 3 the offsets it has written are `0, 1, .., n-1` in this order, one per
pixel (pixel `i` writes offset `i` only), and the buffer is untouched beyond. -/
theorem alpha_copied_or_one_byte (input out0 : Mem) (isz rank c fuel : Nat)
    (hc : c = 3 ∨ c = 4) (hdvd : c ∣ isz) (hfuel : isz / c ≤ fuel) :
    ∃ s, img2gray_transform fuel input isz out0 rank c (gray_channels c) = some s ∧
      (c = 4 → ∀ i, i < isz / c → s.output (i * 2 + 1) = input (isz * rank + i * 4 + 3)) ∧
      (c = 3 → s.writes = List.range (isz / c) ∧ s.iters = isz / c ∧
        ∀ j, isz / c ≤ j → s.output j = out0 j) := by
  refine ⟨_, transform_eq_iterate input out0 isz rank c _ fuel (by omega) hdvd hfuel, ?_, ?_⟩
  · intro h4 i hi
    have h := (iterate_output input out0 isz rank c (isz / c)).2.1 h4 i hi
    have hg : gray_channels c = 2 := by simp [gray_channels, h4]
    rw [hg] at h ⊢
    rw [h, h4]
  · intro h3
    have hg : gray_channels c = 1 := by simp [gray_channels, h3]
    refine ⟨?_, ?_, ?_⟩
    · rw [iterate_writes input out0 isz rank c hc, hg, Nat.mul_one]
    · rw [iterate_iters]; simp [img2gray_init]
    · intro j hj
      apply (iterate_output input out0 isz rank c (isz / c)).2.2 j
      rw [hg, Nat.mul_one]
      exact hj

theorem alpha_copied_or_one_byte_witness :
    ∃ s, img2gray_transform 2 (memOfList [1, 2, 3, 4, 5, 6, 7, 8]) 8 (fun _ => 9) 0 4
        (gray_channels 4) = some s ∧
      (4 = 4 → ∀ i, i < 8 / 4 →
        s.output (i * 2 + 1) = memOfList [1, 2, 3, 4, 5, 6, 7, 8] (8 * 0 + i * 4 + 3)) ∧
      (4 = 3 → s.writes = List.range (8 / 4) ∧ s.iters = 8 / 4 ∧
        ∀ j, 8 / 4 ≤ j → s.output j = (fun _ => 9) j) :=
  alpha_copied_or_one_byte (memOfList [1, 2, 3, 4, 5, 6, 7, 8]) (fun _ => 9) 8 0 4 2
    (Or.inr rfl) (by decide) (by decide)

/-! ## The sizes computed by `main` -/

theorem mul_div_of_dvd (a c n : Nat) (hn : 0 < n) (h : n ∣ a) : a * c / n = a / n * c := by
  obtain ⟨q, rfl⟩ := h
  rw [Nat.mul_div_cancel_left q hn, Nat.mul_assoc, Nat.mul_div_cancel_left (q * c) hn]

theorem input_size_eq (w h c n : Nat) (hn : 0 < n) (hdvd : n ∣ w * h) :
    input_size w h c n = w * h / n * c :=
  mul_div_of_dvd (w * h) c n hn hdvd

theorem output_size_eq (w h c n : Nat) (hn : 0 < n) (hdvd : n ∣ w * h) :
    output_size w h c n = w * h / n * gray_channels c :=
  mul_div_of_dvd (w * h) (gray_channels c) n hn hdvd

theorem input_size_div (w h c n : Nat) (hn : 0 < n) (hc : 0 < c) (hdvd : n ∣ w * h) :
    input_size w h c n / c = w * h / n := by
  rw [input_size_eq w h c n hn hdvd, Nat.mul_div_cancel _ hc]

theorem dvd_input_size (w h c n : Nat) (hn : 0 < n) (hdvd : n ∣ w * h) :
    c ∣ input_size w h c n := by
  rw [input_size_eq w h c n hn hdvd]
  exact Dvd.intro_left _ rfl

/-- C7: with channels 3 or 4, a worker count dividing `width*height` and a rank
below it, the transform loop ends, every input offset it has read lies in
`[input_size*rank, input_size*(rank+1))` and every output offset it has written
lies in `[0, output_size)`. -/
theorem accesses_within_partition (input out0 : Mem) (w h c n rank fuel : Nat)
    (hc : c = 3 ∨ c = 4) (hn : 1 ≤ n) (hdvd : n ∣ w * h) (_hr : rank < n)
    (hfuel : w * h / n ≤ fuel) :
    ∃ s, img2gray_transform fuel input (input_size w h c n) out0 rank c (gray_channels c)
        = some s ∧
      (∀ a, a ∈ s.reads →
        input_size w h c n * rank ≤ a ∧ a < input_size w h c n * (rank + 1)) ∧
      (∀ a, a ∈ s.writes → a < output_size w h c n) := by
  have hcpos : 0 < c := by omega
  have hdiv := input_size_div w h c n hn hcpos hdvd
  refine ⟨_, transform_eq_iterate input out0 (input_size w h c n) rank c _ fuel hcpos
    (dvd_input_size w h c n hn hdvd) (by rw [hdiv]; exact hfuel), ?_, ?_⟩
  · intro a ha
    rw [iterate_reads input out0 _ rank c _ hc, List.mem_range'_1, hdiv,
      ← input_size_eq w h c n hn hdvd] at ha
    constructor
    · exact ha.1
    · rw [Nat.mul_succ]; exact ha.2
  · intro a ha
    rw [iterate_writes input out0 _ rank c hc, List.mem_range, hdiv,
      ← output_size_eq w h c n hn hdvd] at ha
    exact ha

theorem accesses_within_partition_witness :
    ∃ s, img2gray_transform 2 (memOfList [1, 2, 3, 4, 5, 6, 7, 8, 9, 10, 11, 12])
        (input_size 2 2 3 2) (fun _ => 0) 1 3 (gray_channels 3) = some s ∧
      (∀ a, a ∈ s.reads →
        input_size 2 2 3 2 * 1 ≤ a ∧ a < input_size 2 2 3 2 * (1 + 1)) ∧
      (∀ a, a ∈ s.writes → a < output_size 2 2 3 2) :=
  accesses_within_partition (memOfList [1, 2, 3, 4, 5, 6, 7, 8, 9, 10, 11, 12]) (fun _ => 0)
    2 2 3 2 1 2 (Or.inl rfl) (by decide) (by decide) (by decide) (by decide)

/-- C10: with channels 3 or 4 the transform loop, started at `input_size*rank`
and stopping only at `input_size*(rank+1)`, returns for some amount of fuel if and
only if channels divides `input_size`; when it returns it stands at the end
position after exactly `input_size / channels` iterations.  For 4 RGB pixels and
3 workers (3 divides 12 but not 4) `input_size` is 4 and the loop never returns:
from the second iteration on its position is beyond the end of the partition. -/
theorem loop_returns_iff_channels_dvd (input out0 : Mem) (isz rank c g : Nat)
    (hc : c = 3 ∨ c = 4) :
    ((∃ fuel s, img2gray_transform fuel input isz out0 rank c g = some s) ↔ c ∣ isz)
    ∧ (∀ fuel s, img2gray_transform fuel input isz out0 rank c g = some s →
        s.p = isz * (rank + 1) ∧ s.iters = isz / c)
    ∧ (3 ∣ 4 * 1 * 3 ∧ ¬ 3 ∣ 4 * 1 ∧ input_size 4 1 3 3 = 4
        ∧ (∀ fuel, img2gray_transform fuel input (input_size 4 1 3 3) out0 rank 3
              (gray_channels 3) = none)
        ∧ ∀ k, 2 ≤ k →
            input_size 4 1 3 3 * (rank + 1)
              < ((img2gray_step input 3 (gray_channels 3))^[k]
                  (img2gray_init out0 (input_size 4 1 3 3) rank)).p) := by
  have hcpos : 0 < c := by omega
  refine ⟨⟨?_, ?_⟩, ?_, ?_⟩
  · rintro ⟨fuel, s, hs⟩
    by_contra hnd
    rw [transform_none_of_not_dvd input out0 isz rank c g fuel hnd] at hs
    cases hs
  · intro hdvd
    exact ⟨isz / c, _, transform_eq_iterate input out0 isz rank c g _ hcpos hdvd (le_refl _)⟩
  · intro fuel s hs
    have hdvd : c ∣ isz := by
      by_contra hnd
      rw [transform_none_of_not_dvd input out0 isz rank c g fuel hnd] at hs
      cases hs
    unfold img2gray_transform at hs
    obtain ⟨k, _, ht, hp⟩ := loop_some_iff_aux _ _ _ _ _ _ _ _ hs
    refine ⟨hp, ?_⟩
    have hp2 := hp
    rw [ht, iterate_p] at hp2
    simp only [img2gray_init] at hp2
    have h2 : isz * rank + k * c = isz * rank + isz := by rw [hp2]; ring
    have h3 : k * c = isz := by omega
    rw [ht, iterate_iters]
    simp only [img2gray_init, Nat.zero_add]
    rw [← h3, Nat.mul_div_cancel _ hcpos]
  · have e : input_size 4 1 3 3 = 4 := by decide
    refine ⟨by decide, by decide, e, ?_, ?_⟩
    · intro fuel
      rw [e]
      exact transform_none_of_not_dvd input out0 4 rank 3 _ fuel (by decide)
    · intro k hk
      rw [iterate_p, e]
      simp only [img2gray_init]
      have : 4 * (rank + 1) = 4 * rank + 4 := by ring
      omega

theorem loop_returns_iff_channels_dvd_witness :
    ((∃ fuel s, img2gray_transform fuel (memOfList [1, 2, 3, 4]) 4 (fun _ => 0) 0 3 1
        = some s) ↔ 3 ∣ 4)
    ∧ (∀ fuel s, img2gray_transform fuel (memOfList [1, 2, 3, 4]) 4 (fun _ => 0) 0 3 1
        = some s → s.p = 4 * (0 + 1) ∧ s.iters = 4 / 3)
    ∧ (3 ∣ 4 * 1 * 3 ∧ ¬ 3 ∣ 4 * 1 ∧ input_size 4 1 3 3 = 4
        ∧ (∀ fuel, img2gray_transform fuel (memOfList [1, 2, 3, 4]) (input_size 4 1 3 3)
              (fun _ => 0) 0 3 (gray_channels 3) = none)
        ∧ ∀ k, 2 ≤ k →
            input_size 4 1 3 3 * (0 + 1)
              < ((img2gray_step (memOfList [1, 2, 3, 4]) 3 (gray_channels 3))^[k]
                  (img2gray_init (fun _ => 0) (input_size 4 1 3 3) 0)).p) :=
  loop_returns_iff_channels_dvd (memOfList [1, 2, 3, 4]) (fun _ => 0) 4 0 3 1 (Or.inl rfl)

/-! ## The gather -/

theorem MPI_Gather_cons (bufs : List (List Byte)) (rc a : Nat) (rest : List Nat) (m : Mem) :
    MPI_Gather bufs rc (a :: rest) m
      = MPI_Gather bufs rc rest (storeBytes m (a * rc) (bufs.getD a [])) := by
  simp [MPI_Gather]

theorem getD_length_le (bufs : List (List Byte)) (rc : Nat)
    (hsz : ∀ b, b ∈ bufs → b.length = rc) (r : Nat) : (bufs.getD r []).length ≤ rc := by
  by_cases hr : r < bufs.length
  · rw [List.getD_eq_getElem _ _ hr, hsz _ (List.getElem_mem hr)]
  · rw [List.getD_eq_default _ _ (by omega)]
    exact Nat.zero_le _

/-- A contribution leaves the slices of the other ranks as they are. -/
theorem storeBytes_other_slice (m : Mem) (rc a k j : Nat) (b : List Byte) (hb : b.length ≤ rc)
    (hak : a ≠ k) (h1 : k * rc ≤ j) (h2 : j < (k + 1) * rc) :
    storeBytes m (a * rc) b j = m j := by
  unfold storeBytes
  rw [if_neg]
  rintro ⟨h3, h4⟩
  rcases Nat.lt_or_gt_of_ne hak with h | h
  · have : (a + 1) * rc ≤ k * rc := Nat.mul_le_mul_right rc h
    have e : (a + 1) * rc = a * rc + rc := by ring
    omega
  · have : (k + 1) * rc ≤ a * rc := Nat.mul_le_mul_right rc h
    omega

theorem gather_slice_untouched (bufs : List (List Byte)) (rc k j : Nat)
    (hsz : ∀ b, b ∈ bufs → b.length = rc) (h1 : k * rc ≤ j) (h2 : j < (k + 1) * rc) :
    ∀ (arrival : List Nat) (m : Mem), k ∉ arrival → MPI_Gather bufs rc arrival m j = m j := by
  intro arrival
  induction arrival with
  | nil => intro m _; rfl
  | cons a rest ih =>
    intro m hk
    rw [MPI_Gather_cons, ih _ (fun h => hk (List.mem_cons_of_mem a h))]
    apply storeBytes_other_slice _ _ _ _ _ _ (getD_length_le bufs rc hsz a) _ h1 h2
    intro hak
    exact hk (by rw [hak]; exact List.mem_cons_self _ _)

theorem gather_slice (bufs : List (List Byte)) (rc k j : Nat)
    (hsz : ∀ b, b ∈ bufs → b.length = rc) (hk : k < bufs.length) (hj : j < rc) :
    ∀ (arrival : List Nat) (m : Mem), k ∈ arrival →
      MPI_Gather bufs rc arrival m (k * rc + j) = (bufs.getD k []).getD j 0 := by
  intro arrival
  induction arrival with
  | nil => intro m h; cases h
  | cons a rest ih =>
    intro m hmem
    rw [MPI_Gather_cons]
    by_cases hrest : k ∈ rest
    · exact ih _ hrest
    · have hak : a = k := by
        rcases List.mem_cons.mp hmem with h | h
        · exact h.symm
        · exact absurd h hrest
      subst hak
      have e : (a + 1) * rc = a * rc + rc := by ring
      rw [gather_slice_untouched bufs rc a (a * rc + j) hsz (by omega) (by omega) rest _ hrest]
      unfold storeBytes
      have hl : (bufs.getD a []).length = rc := by
        rw [List.getD_eq_getElem _ _ hk]
        exact hsz _ (List.getElem_mem hk)
      rw [if_pos ⟨by omega, by omega⟩]
      congr 1
      omega

theorem map_getD_range (l : List Byte) (n : Nat) (h : l.length = n) :
    (List.range n).map (fun j => l.getD j 0) = l := by
  apply List.ext_getElem
  · simp [h]
  · intro i h1 h2
    simp only [List.getElem_map, List.getElem_range]
    exact List.getD_eq_getElem _ _ h2

/-- C5: with the gather taken as the collective of the runtime (root 0, one
contribution of `output_size` bytes per rank, written at `rank * output_size`),
for every worker count `N >= 1`, every order in which the `N` contributions
arrive and every `k < N`, the bytes `[k*output_size, (k+1)*output_size)` of the
root's `global_output` are the private buffer of worker `k`. -/
theorem gather_places_by_rank (bufs : List (List Byte)) (n osz k : Nat) (arrival : List Nat)
    (global_output : Mem) (_hn : 1 ≤ n) (hlen : bufs.length = n)
    (hsz : ∀ b, b ∈ bufs → b.length = osz) (harr : arrival.Perm (List.range n))
    (hk : k < n) :
    (List.range osz).map (fun j => MPI_Gather bufs osz arrival global_output (k * osz + j))
      = bufs.getD k [] := by
  have hmem : k ∈ arrival := (harr.mem_iff).mpr (List.mem_range.mpr hk)
  have hkl : k < bufs.length := by omega
  have hl : (bufs.getD k []).length = osz := by
    rw [List.getD_eq_getElem _ _ hkl]
    exact hsz _ (List.getElem_mem hkl)
  rw [← map_getD_range (bufs.getD k []) osz hl]
  apply List.map_congr_left
  intro j hj
  exact gather_slice bufs osz k j hsz hkl (List.mem_range.mp hj) arrival global_output hmem

theorem gather_places_by_rank_witness :
    (List.range 2).map
        (fun j => MPI_Gather [[1, 2], [3, 4], [5, 6]] 2 [2, 0, 1] (fun _ => 0) (1 * 2 + j))
      = [[1, 2], [3, 4], [5, 6]].getD 1 [] :=
  gather_places_by_rank [[1, 2], [3, 4], [5, 6]] 3 2 1 [2, 0, 1] (fun _ => 0) (by decide)
    (by decide) (by decide) (by decide) (by decide)

/-! ## The whole pipeline -/

theorem grayPixels_length (input : Mem) (c start n : Nat) :
    (grayPixels input c start n).length = n * gray_channels c := by
  unfold grayPixels
  induction n with
  | zero => simp
  | succ n ih =>
    rw [List.range_succ, List.flatMap_append, List.length_append, ih]
    unfold grayPixel gray_channels
    split
    · simp; ring
    · simp

theorem worker_buffers_eq (input : Mem) (outputs : Nat → Mem) (w h c n fuel : Nat)
    (hc : c = 3 ∨ c = 4) (hn : 1 ≤ n) (hdvd : n ∣ w * h) (hfuel : w * h / n ≤ fuel) (k : Nat) :
    worker_buffers fuel w h c n input outputs k
      = some ((List.range k).map
          (fun r => grayPixels input c (input_size w h c n * r) (w * h / n))) := by
  have hcpos : 0 < c := by omega
  have hdiv := input_size_div w h c n hn hcpos hdvd
  induction k with
  | zero => rfl
  | succ k ih =>
    unfold worker_buffers
    rw [ih, send_eq_grayPixels input (outputs k) (input_size w h c n) k c fuel
      (output_size w h c n) hc (dvd_input_size w h c n hn hdvd) (by rw [hdiv]; exact hfuel)
      (by rw [hdiv]; exact output_size_eq w h c n hn hdvd)]
    simp only [hdiv]
    rw [List.range_succ, List.map_append]
    rfl

theorem readBuf_slices (m : Mem) (osz n : Nat) :
    readBuf m (osz * n)
      = ((List.range n).map
          (fun k => (List.range osz).map (fun j => m (k * osz + j)))).flatten := by
  induction n with
  | zero => rfl
  | succ n ih =>
    unfold readBuf at ih ⊢
    rw [Nat.mul_succ, List.range_add, List.map_append, ih, List.range_succ, List.map_append,
      List.flatten_append, List.map_map]
    simp only [List.map_cons, List.map_nil, List.flatten_cons, List.flatten_nil,
      List.append_nil]
    congr 1
    apply List.map_congr_left
    intro j _
    simp only [Function.comp]
    rw [Nat.mul_comm n osz]

theorem getD_map_range (F : Nat → List Byte) (n k : Nat) (hk : k < n) :
    ((List.range n).map F).getD k [] = F k := by
  rw [List.getD_eq_getElem _ _ (by simpa using hk)]
  simp

/-- The gather of equal-size buffers, in whatever order they arrive, leaves their
concatenation by ascending rank in the receive buffer. -/
theorem gather_concat (F : Nat → List Byte) (n osz : Nat) (arrival : List Nat) (g0 : Mem)
    (hsz : ∀ k, k < n → (F k).length = osz) (harr : arrival.Perm (List.range n)) :
    readBuf (MPI_Gather ((List.range n).map F) osz arrival g0) (osz * n)
      = ((List.range n).map F).flatten := by
  rw [readBuf_slices]
  congr 1
  apply List.map_congr_left
  intro k hk
  have hk1 : k < n := List.mem_range.mp hk
  have hszb : ∀ b, b ∈ (List.range n).map F → b.length = osz := by
    intro b hb
    obtain ⟨r, hr, rfl⟩ := List.mem_map.mp hb
    exact hsz r (List.mem_range.mp hr)
  have hmem : k ∈ arrival := (harr.mem_iff).mpr hk
  have hkl : k < ((List.range n).map F).length := by simpa using hk1
  rw [← map_getD_range (F k) osz (hsz k hk1)]
  apply List.map_congr_left
  intro j hj
  rw [gather_slice _ osz k j hszb hkl (List.mem_range.mp hj) arrival g0 hmem,
    getD_map_range F n k hk1]

theorem flatMap_range_mul (f : Nat → List Byte) (n m : Nat) :
    (List.range (n * m)).flatMap f
      = ((List.range n).map (fun r => (List.range m).flatMap (fun i => f (r * m + i)))).flatten := by
  induction n with
  | zero => simp
  | succ n ih =>
    rw [Nat.succ_mul, List.range_add, List.flatMap_append, ih, List.range_succ, List.map_append,
      List.flatten_append, List.flatMap_map]
    simp

/-- The partitions transformed one by one and put side by side are the transform
of the whole image. -/
theorem grayPixels_concat (input : Mem) (c n m : Nat) :
    ((List.range n).map (fun r => grayPixels input c (m * c * r) m)).flatten
      = grayPixels input c 0 (n * m) := by
  unfold grayPixels
  rw [flatMap_range_mul]
  congr 1
  apply List.map_congr_left
  intro r _
  congr 1
  funext i
  congr 1
  ring

theorem pipeline_eq (input : Mem) (outputs : Nat → Mem) (g0 : Mem) (arrival : List Nat)
    (w h c n fuel : Nat) (hc : c = 3 ∨ c = 4) (hn : 1 ≤ n) (hdvd : n ∣ w * h)
    (harr : arrival.Perm (List.range n)) (hfuel : w * h / n ≤ fuel) :
    pipeline fuel w h c n input outputs arrival g0 = some (grayPixels input c 0 (w * h)) := by
  unfold pipeline global_output_size
  rw [worker_buffers_eq input outputs w h c n fuel hc hn hdvd hfuel n]
  simp only [Option.map_some']
  congr 1
  rw [gather_concat _ n (output_size w h c n) arrival g0 _ harr]
  · rw [input_size_eq w h c n hn hdvd, grayPixels_concat, Nat.mul_div_cancel' hdvd]
  · intro k _
    rw [grayPixels_length, output_size_eq w h c n hn hdvd]

/-- C2: for channels 3 or 4 and every worker count `N >= 1` dividing
`width*height`, whatever the order in which the gather receives the private
buffers, the global output on rank 0 is byte for byte the one obtained with a
single worker, which is the transform of the whole image by one loop. -/
theorem parallel_equals_sequential (input : Mem) (outputs outputs1 : Nat → Mem)
    (g0 g1 : Mem) (arrival : List Nat) (w h c n fuel : Nat)
    (hc : c = 3 ∨ c = 4) (hn : 1 ≤ n) (hdvd : n ∣ w * h)
    (harr : arrival.Perm (List.range n)) (hfuel : w * h ≤ fuel) :
    ∃ bytes, pipeline fuel w h c n input outputs arrival g0 = some bytes
      ∧ pipeline fuel w h c 1 input outputs1 [0] g1 = some bytes
      ∧ img2gray_send fuel input (w * h * c) (outputs1 0) (w * h * gray_channels c) 0 c
          (gray_channels c) = some bytes := by
  have hcpos : 0 < c := by omega
  have hle : w * h / n ≤ w * h := Nat.div_le_self _ _
  refine ⟨grayPixels input c 0 (w * h),
    pipeline_eq input outputs g0 arrival w h c n fuel hc hn hdvd harr (by omega),
    pipeline_eq input outputs1 g1 [0] w h c 1 fuel hc (le_refl 1) (one_dvd _)
      (by decide) (by rw [Nat.div_one]; exact hfuel), ?_⟩
  have h := send_eq_grayPixels input (outputs1 0) (w * h * c) 0 c fuel (w * h * gray_channels c)
    hc (Dvd.intro_left _ rfl) (by rw [Nat.mul_div_cancel _ hcpos]; exact hfuel)
    (by rw [Nat.mul_div_cancel _ hcpos])
  rw [h, Nat.mul_div_cancel _ hcpos, Nat.mul_zero]

theorem parallel_equals_sequential_witness :
    ∃ bytes,
      pipeline 4 4 1 3 2 (memOfList [30, 60, 90, 0, 0, 0, 255, 255, 255, 10, 20, 30])
          (fun _ _ => 7) [1, 0] (fun _ => 9) = some bytes
      ∧ pipeline 4 4 1 3 1 (memOfList [30, 60, 90, 0, 0, 0, 255, 255, 255, 10, 20, 30])
          (fun _ _ => 8) [0] (fun _ => 5) = some bytes
      ∧ img2gray_send 4 (memOfList [30, 60, 90, 0, 0, 0, 255, 255, 255, 10, 20, 30])
          (4 * 1 * 3) ((fun _ _ => 8) 0) (4 * 1 * gray_channels 3) 0 3 (gray_channels 3)
          = some bytes :=
  parallel_equals_sequential (memOfList [30, 60, 90, 0, 0, 0, 255, 255, 255, 10, 20, 30])
    (fun _ _ => 7) (fun _ _ => 8) (fun _ => 9) (fun _ => 5) [1, 0] 4 1 3 2 4
    (Or.inl rfl) (by decide) (by decide) (by decide) (by decide)

/-! ## Partitions and sizes -/

/-- Slices of `size` bytes, `n` of them, tile `[0, size * n)`. -/
theorem slices_tile (size n : Nat) :
    (∀ r1 r2 b, inPartition size r1 b → inPartition size r2 b → r1 = r2)
    ∧ (∀ b, b < size * n ↔ ∃ r, r < n ∧ inPartition size r b) := by
  unfold inPartition
  constructor
  · intro r1 r2 b h1 h2
    by_contra hne
    rcases Nat.lt_or_gt_of_ne hne with h | h
    · have : size * (r1 + 1) ≤ size * r2 := Nat.mul_le_mul_left size h
      omega
    · have : size * (r2 + 1) ≤ size * r1 := Nat.mul_le_mul_left size h
      omega
  · intro b
    constructor
    · intro hb
      have hpos : 0 < size := by
        rcases Nat.eq_zero_or_pos size with h0 | h0
        · rw [h0, Nat.zero_mul] at hb; omega
        · exact h0
      refine ⟨b / size, ?_, Nat.mul_div_le b size, Nat.lt_mul_div_succ b hpos⟩
      rw [Nat.div_lt_iff_lt_mul hpos, Nat.mul_comm]
      exact hb
    · rintro ⟨r, hr, _, h2⟩
      have : size * (r + 1) ≤ size * n := Nat.mul_le_mul_left size hr
      omega

/-- C4: for a worker count `N >= 1` dividing `width*height`, the input ranges
`[input_size*rank, input_size*(rank+1))`, `rank < N`, are pairwise disjoint and
cover exactly `[0, width*height*channels)`, and the output ranges
`[output_size*k, output_size*(k+1))` tile `[0, width*height*gray_channels)`
in the same way. -/
theorem partitions_tile (w h c n : Nat) (hn : 1 ≤ n) (hdvd : n ∣ w * h) :
    (∀ r1 r2 b, r1 < n → r2 < n → r1 ≠ r2 →
        ¬ (inPartition (input_size w h c n) r1 b ∧ inPartition (input_size w h c n) r2 b))
    ∧ (∀ b, b < w * h * c ↔ ∃ r, r < n ∧ inPartition (input_size w h c n) r b)
    ∧ (∀ k1 k2 b, k1 < n → k2 < n → k1 ≠ k2 →
        ¬ (inPartition (output_size w h c n) k1 b ∧ inPartition (output_size w h c n) k2 b))
    ∧ (∀ b, b < w * h * gray_channels c ↔
        ∃ k, k < n ∧ inPartition (output_size w h c n) k b) := by
  have hi : input_size w h c n * n = w * h * c := by
    rw [input_size_eq w h c n hn hdvd, Nat.mul_right_comm, Nat.div_mul_cancel hdvd]
  have ho : output_size w h c n * n = w * h * gray_channels c := by
    rw [output_size_eq w h c n hn hdvd, Nat.mul_right_comm, Nat.div_mul_cancel hdvd]
  refine ⟨?_, ?_, ?_, ?_⟩
  · intro r1 r2 b _ _ hne hb
    exact hne ((slices_tile (input_size w h c n) n).1 r1 r2 b hb.1 hb.2)
  · intro b
    rw [← hi]
    exact (slices_tile (input_size w h c n) n).2 b
  · intro r1 r2 b _ _ hne hb
    exact hne ((slices_tile (output_size w h c n) n).1 r1 r2 b hb.1 hb.2)
  · intro b
    rw [← ho]
    exact (slices_tile (output_size w h c n) n).2 b

theorem partitions_tile_witness :
    (∀ r1 r2 b, r1 < 2 → r2 < 2 → r1 ≠ r2 →
        ¬ (inPartition (input_size 2 3 4 2) r1 b ∧ inPartition (input_size 2 3 4 2) r2 b))
    ∧ (∀ b, b < 2 * 3 * 4 ↔ ∃ r, r < 2 ∧ inPartition (input_size 2 3 4 2) r b)
    ∧ (∀ k1 k2 b, k1 < 2 → k2 < 2 → k1 ≠ k2 →
        ¬ (inPartition (output_size 2 3 4 2) k1 b ∧ inPartition (output_size 2 3 4 2) k2 b))
    ∧ (∀ b, b < 2 * 3 * gray_channels 4 ↔
        ∃ k, k < 2 ∧ inPartition (output_size 2 3 4 2) k b) :=
  partitions_tile 2 3 4 2 (by decide) (by decide)

theorem write_output_dataSize (w h oc : Nat) (path : List Char) (e : WriteEffect)
    (he : write_output w h path oc = some e) : e.call.dataSize = w * h * oc := by
  unfold write_output at he
  split at he
  · cases he
  · simp only at he
    split at he
    · cases he; rfl
    · split at he
      · cases he; rfl
      · split at he
        · cases he; rfl
        · cases he; rfl

theorem write_output_isSome (w h oc : Nat) (path : List Char)
    (hdot : (strrchr path '.').isSome = true) : (write_output w h path oc).isSome = true := by
  unfold write_output
  split
  · rename_i hnone
    rw [hnone] at hdot
    cases hdot
  · simp only
    split
    · rfl
    · split
      · rfl
      · split <;> rfl

/-- C6: `gray_channels` is 1 for 3 channels and 2 for 4; for a worker count
`N >= 1` dividing `width*height` the global output buffer of `output_size * N`
bytes has `width*height` bytes for RGB and `2*width*height` bytes for RGBA, and
this is the `width*height*output_channels` bytes a writer called by
`write_output` is handed (a call is made for every path that holds a dot). -/
theorem global_output_byte_count (w h n : Nat) (hn : 1 ≤ n) (hdvd : n ∣ w * h) :
    gray_channels 3 = 1 ∧ gray_channels 4 = 2
    ∧ global_output_size w h 3 n = w * h
    ∧ global_output_size w h 4 n = 2 * (w * h)
    ∧ (∀ c path e, write_output w h path (gray_channels c) = some e →
        e.call.dataSize = global_output_size w h c n)
    ∧ (∀ c path, (strrchr path '.').isSome = true →
        (write_output w h path (gray_channels c)).isSome = true) := by
  have ho : ∀ c, global_output_size w h c n = w * h * gray_channels c := by
    intro c
    unfold global_output_size
    rw [output_size_eq w h c n hn hdvd, Nat.mul_right_comm, Nat.div_mul_cancel hdvd]
  refine ⟨by decide, by decide, ?_, ?_, ?_, ?_⟩
  · rw [ho 3]; simp [gray_channels]
  · rw [ho 4]; simp [gray_channels, Nat.mul_comm]
  · intro c path e he
    rw [ho c]
    exact write_output_dataSize w h _ path e he
  · intro c path hdot
    exact write_output_isSome w h _ path hdot

theorem global_output_byte_count_witness :
    gray_channels 3 = 1 ∧ gray_channels 4 = 2
    ∧ global_output_size 6 4 3 8 = 6 * 4
    ∧ global_output_size 6 4 4 8 = 2 * (6 * 4)
    ∧ (∀ c path e, write_output 6 4 path (gray_channels c) = some e →
        e.call.dataSize = global_output_size 6 4 c 8)
    ∧ (∀ c path, (strrchr path '.').isSome = true →
        (write_output 6 4 path (gray_channels c)).isSome = true) :=
  global_output_byte_count 6 4 8 (by decide) (by decide)

/-- C8: `write_output` picks the writer from the text after the last dot of the
path (jpg and jpeg: JPEG of quality 100; png: PNG with stride
`width*output_channels`; bmp: BMP; anything else: the warning and a JPEG named
output.jpg), but for a path without any dot, here "gray", it has no defined
behaviour: `strrchr` returns the null pointer and `strcmp` is applied to
`dot + 1`, so the fallback of the last branch is not reached. -/
theorem write_output_without_dot_undefined :
    write_output 4 1 "gray".toList 1 = none
    ∧ write_output 4 1 "a.b/out.jpg".toList 1
        = some ⟨none, .stbi_write_jpg "a.b/out.jpg".toList 4 1 1 100⟩
    ∧ write_output 4 1 "out.jpeg".toList 1
        = some ⟨none, .stbi_write_jpg "out.jpeg".toList 4 1 1 100⟩
    ∧ write_output 4 1 "out.png".toList 2
        = some ⟨none, .stbi_write_png "out.png".toList 4 1 2 8⟩
    ∧ write_output 4 1 "out.bmp".toList 1
        = some ⟨none, .stbi_write_bmp "out.bmp".toList 4 1 1⟩
    ∧ write_output 4 1 "out.gif".toList 1
        = some ⟨some "Output type is not jpg, png or bmp, defaulting to output.jpg\n",
            .stbi_write_jpg "output.jpg".toList 4 1 1 100⟩ := by
  decide

/-! ## The barriers -/

theorem barrierOpen_iff (σ : List Phase) (b : Phase) :
    barrierOpen σ b = true ↔ ∀ ph, ph ∈ σ → b.order ≤ ph.order := by
  unfold barrierOpen
  simp [List.all_eq_true]

/-- A move never takes a worker backwards, and a worker gets into the gather or
past it only from the gather itself or through the open exit barrier. -/
theorem nextPhase_order (iters : Nat) (σ : List Phase) (ph ph1 : Phase)
    (h : nextPhase iters σ ph = some ph1) :
    ph.order ≤ ph1.order
    ∧ (4 ≤ ph1.order → 4 ≤ ph.order ∨ ∀ x, x ∈ σ → 3 ≤ x.order) := by
  cases ph with
  | idle =>
    simp only [nextPhase, Option.some.injEq] at h
    subst h
    simp [Phase.order]
  | entryBarrier =>
    simp only [nextPhase] at h
    split at h
    · cases h
      simp [Phase.order]
    · cases h
  | computing k =>
    simp only [nextPhase] at h
    split at h <;> (cases h; simp [Phase.order])
  | exitBarrier =>
    simp only [nextPhase] at h
    split at h
    · rename_i hopen
      cases h
      refine ⟨by simp [Phase.order], fun _ => Or.inr ?_⟩
      exact (barrierOpen_iff σ .exitBarrier).mp hopen
    · cases h
  | gathering =>
    simp only [nextPhase, Option.some.injEq] at h
    subst h
    simp [Phase.order]
  | finished =>
    simp only [nextPhase] at h
    cases h

/-- In a reachable state, as soon as one worker is in the gather or past it,
every worker is at the exit barrier or later. -/
theorem reachable_inv (n iters : Nat) (σ : List Phase) (hr : Reachable n iters σ) :
    (∃ q, q ∈ σ ∧ 4 ≤ q.order) → ∀ x, x ∈ σ → 3 ≤ x.order := by
  induction hr with
  | start =>
    rintro ⟨q, hq, hq4⟩
    rw [List.eq_of_mem_replicate hq] at hq4
    simp [Phase.order] at hq4
  | move σ τ w _ hstep ih =>
    unfold workerStep at hstep
    split at hstep
    · cases hstep
    · rename_i ph hph
      cases hnext : nextPhase iters σ ph with
      | none => rw [hnext] at hstep; cases hstep
      | some ph1 =>
        rw [hnext] at hstep
        simp only [Option.map_some', Option.some.injEq] at hstep
        subst hstep
        have hmem : ph ∈ σ := List.getElem?_mem hph
        obtain ⟨hmono, hgate⟩ := nextPhase_order iters σ ph ph1 hnext
        rintro ⟨q, hq, hq4⟩
        have hall : ∀ x, x ∈ σ → 3 ≤ x.order := by
          rcases List.mem_or_eq_of_mem_set hq with hqσ | hqe
          · exact ih ⟨q, hqσ, hq4⟩
          · rw [hqe] at hq4
            rcases hgate hq4 with h4 | h3
            · exact ih ⟨ph, hmem, h4⟩
            · exact h3
        intro x hx
        rcases List.mem_or_eq_of_mem_set hx with hxσ | hxe
        · exact hall x hxσ
        · rw [hxe]
          exact Nat.le_trans (hall ph hmem) hmono

/-- C9: in every state that `N` workers running `img2gray` can reach, when some
worker is in the gather (or past it) no worker is still in its transform loop or
before it: every worker has reached the exit barrier, so every private buffer
is completely written when the root assembles it. -/
theorem no_gather_while_computing (n iters : Nat) (σ : List Phase)
    (hr : Reachable n iters σ) (hg : Phase.gathering ∈ σ ∨ Phase.finished ∈ σ) :
    (∀ k, Phase.computing k ∉ σ) ∧ Phase.idle ∉ σ ∧ Phase.entryBarrier ∉ σ
    ∧ (∀ ph, ph ∈ σ →
        ph = Phase.exitBarrier ∨ ph = Phase.gathering ∨ ph = Phase.finished) := by
  have hex : ∃ q, q ∈ σ ∧ 4 ≤ q.order := by
    rcases hg with h | h
    · exact ⟨_, h, by simp [Phase.order]⟩
    · exact ⟨_, h, by simp [Phase.order]⟩
  have h3 := reachable_inv n iters σ hr hex
  refine ⟨?_, ?_, ?_, ?_⟩
  · intro k hk
    have := h3 _ hk
    simp [Phase.order] at this
  · intro hk
    have := h3 _ hk
    simp [Phase.order] at this
  · intro hk
    have := h3 _ hk
    simp [Phase.order] at this
  · intro ph hph
    have := h3 ph hph
    cases ph <;> simp [Phase.order] at this ⊢

theorem no_gather_while_computing_witness :
    (∀ k, Phase.computing k ∉ [Phase.gathering, Phase.exitBarrier])
    ∧ Phase.idle ∉ [Phase.gathering, Phase.exitBarrier]
    ∧ Phase.entryBarrier ∉ [Phase.gathering, Phase.exitBarrier]
    ∧ (∀ ph, ph ∈ [Phase.gathering, Phase.exitBarrier] →
        ph = Phase.exitBarrier ∨ ph = Phase.gathering ∨ ph = Phase.finished) :=
  no_gather_while_computing 2 1 [Phase.gathering, Phase.exitBarrier]
    (Reachable.move [.exitBarrier, .exitBarrier] _ 0
      (Reachable.move [.exitBarrier, .computing 1] _ 1
        (Reachable.move [.exitBarrier, .computing 0] _ 1
          (Reachable.move [.computing 1, .computing 0] _ 0
            (Reachable.move [.computing 0, .computing 0] _ 0
              (Reachable.move [.computing 0, .entryBarrier] _ 1
                (Reachable.move [.entryBarrier, .entryBarrier] _ 0
                  (Reachable.move [.entryBarrier, .idle] _ 1
                    (Reachable.move [.idle, .idle] _ 0 Reachable.start (by decide))
                    (by decide))
                  (by decide))
                (by decide))
              (by decide))
            (by decide))
          (by decide))
        (by decide))
      (by decide))
    (Or.inl (by decide))

end Img2Gray
